import Mathlib

/-!
# Verification of the object ingestion and deletion core (garage)

Shallow embedding of `src/model/block_ref_table.rs`, `src/api/s3/put.rs`,
`src/api/s3/delete.rs` and `src/table/schema.rs`, together with proofs of the
specification claims about them.

Machine integers are modelled as `Nat`/`Int`; 256-bit identifiers (`Hash`,
`UUID`) are modelled as abstract values with decidable equality (`Nat` here),
since the code only copies and compares them.
-/

namespace Garage

/-- 256-bit BLAKE2 block hash (`garage_util::data::Hash`): only copied and
compared by the code under study, so modelled as an abstract identifier. -/
abbrev Hash := Nat

/-- 256-bit random identifier (`garage_util::data::UUID`). -/
abbrev UUID := Nat

/-! ## BlockRef and its CRDT merge (`src/model/block_ref_table.rs`) -/

/-- Entry of the block-reference table: `struct BlockRef { block, version,
deleted }`. -/
structure BlockRef where
  block : Hash
  version : UUID
  deleted : Bool
deriving Repr, DecidableEq

/-- `impl Entry for BlockRef`: `fn merge(&mut self, other)` sets
`self.deleted = true` when `other.deleted`, leaving everything else of `self`
unchanged. -/
def BlockRef.merge (self other : BlockRef) : BlockRef :=
  if other.deleted then { self with deleted := true } else self

/-! ## The `updated` hook (`BlockRefTable::updated`) -/

/-- A refcount call made by the `updated` hook on the block manager. -/
inductive RefCall where
  | incref (h : Hash)
  | decref (h : Hash)
deriving Repr, DecidableEq

/-- `BlockRefTable::updated(old, new)`, with the panic made explicit:
`old.as_ref().or(new.as_ref()).unwrap()` panics (modelled as `none`) when both
arguments are `None`.  Otherwise the hook computes
`was_before = old.map(|x| !x.deleted).unwrap_or(false)` and
`is_after = new.map(|x| !x.deleted).unwrap_or(false)`, calls `block_incref`
on the rising edge and `block_decref` on the falling edge, and returns.  The
returned list records the refcount calls made, in order. -/
def BlockRefTable.updated (old new : Option BlockRef) :
    Option (List RefCall) :=
  match old.or new with
  | none => none
  | some fst =>
    let block := fst.block
    let was_before := (old.map (fun x => !x.deleted)).getD false
    let is_after := (new.map (fun x => !x.deleted)).getD false
    let calls₁ : List RefCall :=
      if is_after && !was_before then [RefCall.incref block] else []
    let calls₂ : List RefCall :=
      if was_before && !is_after then [RefCall.decref block] else []
    some (calls₁ ++ calls₂)

/-- Outcome of running the body of `updated` against a block manager whose
`block_incref`/`block_decref` may fail (`refResult call = none` models an
`Err`).  Failures are turned into log lines (`warn!`) and the hook still
returns `()`: the result type records the calls attempted and the warnings
logged, with no error channel at all, mirroring the `fn updated(..) -> ()`
signature. -/
def BlockRefTable.updatedRun (refResult : RefCall → Option Unit)
    (old new : Option BlockRef) : Option (List RefCall × Nat) :=
  (BlockRefTable.updated old new).map fun calls =>
    (calls, (calls.filter (fun c => (refResult c).isNone)).length)

/-! ## Errors (`src/api/s3/error.rs` is external; only the constructors used
by the code under study are modelled) -/

/-- The API error values produced by the code under study:
`Error::NoSuchKey`, `Error::bad_request(msg)`, `Error::forbidden(msg)`. -/
inductive SpecError where
  | noSuchKey
  | badRequest (msg : String)
  | forbidden (msg : String)
deriving Repr, DecidableEq

/-! ## Objects and versions (`garage_model::s3::object_table`, external crate).
Modelled from the spec: `ObjectVersion = { uuid, timestamp, state }` with
`state ∈ Uploading { multipart } | Complete(data) | Aborted` and
`data ∈ DeleteMarker | Inline | FirstBlock(first_block_hash)`; an `Object`
holds a list of versions ordered by `(timestamp, uuid)` ascending. -/

/-- `ObjectVersionData`: payloads (`meta`, inline bytes) are abstracted since
the code under study never inspects them. -/
inductive ObjectVersionData where
  | deleteMarker
  | inlineData (size : Nat)
  | firstBlock (first_block_hash : Hash)
deriving Repr, DecidableEq

/-- `ObjectVersionState` (the `encryption` payload of `Uploading` is
abstracted). -/
inductive ObjectVersionState where
  | uploading (multipart : Bool)
  | complete (data : ObjectVersionData)
  | aborted
deriving Repr, DecidableEq

/-- `matches!(&v.state, ObjectVersionState::Aborted)`. -/
def ObjectVersionState.isAborted : ObjectVersionState → Bool
  | .aborted => true
  | _ => false

structure ObjectVersion where
  uuid : UUID
  timestamp : Nat
  state : ObjectVersionState
deriving Repr, DecidableEq

/-- An object row: `versions()` returns the version list in ascending
`(timestamp, uuid)` order. -/
structure Object where
  versions : List ObjectVersion
deriving Repr, DecidableEq

/-! ## `next_timestamp` (`src/api/s3/put.rs`, lines 665-671) -/

/-- `next_timestamp(existing_object)`; the call to `now_msec()` is passed in
explicitly as `now`.  Mirrors
`existing_object.and_then(|obj| obj.versions().iter().map(|v| v.timestamp).max())
  .map(|t| max(t + 1, now_msec())).unwrap_or_else(now_msec)`. -/
def next_timestamp (now : Nat) (existing_object : Option Object) : Nat :=
  match existing_object.bind (fun obj => (obj.versions.map (·.timestamp)).max?) with
  | some t => max (t + 1) now
  | none => now

/-! ## `handle_delete_internal` (`src/api/s3/delete.rs`, lines 15-56) -/

/-- The all-zero uuid `Uuid::from([0u8; 32])`. -/
def zeroUuid : UUID := 0

/-- The `deleted_version` selection of `handle_delete_internal`:
`object.versions().iter().rev().find(|v| !matches!(&v.state, Aborted))
  .or_else(|| object.versions().iter().rev().next())`, then the uuid of the
result, or the zero uuid (with a `warn!` log) when the version list is
empty. -/
def deleted_version_of (versions : List ObjectVersion) : UUID :=
  match (versions.reverse.find? (fun v => !v.state.isAborted)).or
      versions.reverse.head? with
  | some dv => dv.uuid
  | none => zeroUuid

/-- `handle_delete_internal(garage, bucket_id, key)`, with the external table
lookup result passed in as `found`, the fresh `gen_uuid()` as `del_uuid` and
`now_msec()` as `now`.  Returns the `Ok((deleted_version, del_uuid))` pair
together with the tombstone `Object` inserted into the object table, or
`Err(Error::NoSuchKey)` when the lookup found nothing. -/
def handle_delete_internal (now : Nat) (found : Option Object)
    (del_uuid : UUID) : Except SpecError ((UUID × UUID) × Object) :=
  match found with
  | none => .error .noSuchKey
  | some object =>
    let del_timestamp := next_timestamp now (some object)
    let deleted_version := deleted_version_of object.versions
    let tombstone : Object :=
      ⟨[⟨del_uuid, del_timestamp, .complete .deleteMarker⟩]⟩
    .ok ((deleted_version, del_uuid), tombstone)

/-! ## XML trees and `parse_delete_objects_xml`
(`src/api/s3/delete.rs`, lines 124-165)

The `roxmltree` document is external; its node API is modelled from the
spec's batch-delete grammar as a tree of element and text nodes.  A parsed
document is the list of children of the document node (`xml.root()`), whose
first child is the root element. -/

/-- An XML node: an element with a tag name and children, or a text node. -/
inductive XmlNode where
  | element (tag : String) (children : List XmlNode)
  | text (s : String)

/-- `Node::has_tag_name(name)`: true only for elements with that tag. -/
def XmlNode.hasTagName (name : String) : XmlNode → Bool
  | .element tag _ => tag == name
  | .text _ => false

/-- `Node::children()`: a text node has no children. -/
def XmlNode.children : XmlNode → List XmlNode
  | .element _ cs => cs
  | .text _ => []

/-- `Node::text()`: for an element, the string of its first child if that
child is a text node; for a text node, its own string. -/
def XmlNode.text? : XmlNode → Option String
  | .element _ cs =>
    match cs.head? with
    | some (.text s) => some s
    | _ => none
  | .text s => some s

structure DeleteObject where
  key : String
deriving Repr, DecidableEq

structure DeleteRequest where
  quiet : Bool
  objects : List DeleteObject
deriving Repr, DecidableEq

/-- The `for item in delete.children()` loop of `parse_delete_objects_xml`,
threading the `ret` accumulator.  An `<Object>` child must have a `<Key>`
child with text; a `<Quiet>` child must have text, and sets `quiet` to
whether that text equals `"true"`; any other child (element with another
tag, or a non-element node, for which `has_tag_name` is false) makes the
whole parse return `None`. -/
def parseDeleteItems : List XmlNode → DeleteRequest → Option DeleteRequest
  | [], ret => some ret
  | item :: rest, ret =>
    if item.hasTagName ("Object") then
      match item.children.find? (fun e => e.hasTagName ("Key")) with
      | none => none
      | some key =>
        match key.text? with
        | none => none
        | some key_str =>
          parseDeleteItems rest
            { ret with objects := ret.objects ++ [⟨key_str⟩] }
    else if item.hasTagName ("Quiet") then
      match item.text? with
      | none => none
      | some t => parseDeleteItems rest { ret with quiet := t == "true" }
    else
      none

/-- `parse_delete_objects_xml(xml)`: `xml.root().first_child()?` must be the
`<Delete>` element, then its children are folded by `parseDeleteItems`
starting from `ret = { quiet: false, objects: [] }`. -/
def parse_delete_objects_xml (docChildren : List XmlNode) :
    Option DeleteRequest :=
  match docChildren.head? with
  | none => none
  | some delete =>
    if delete.hasTagName ("Delete") then
      parseDeleteItems delete.children ⟨false, []⟩
    else
      none

/-- One `<Deleted>` entry of the batch-delete response (uuids kept raw; the
source hex-encodes them for the XML). -/
structure Deleted where
  key : String
  version_id : UUID
  delete_marker_version_id : UUID
deriving Repr, DecidableEq

/-- One `<Error>` entry of the batch-delete response. -/
structure DeleteError where
  key : String
  err : SpecError
deriving Repr, DecidableEq

/-- The per-key loop of `handle_delete_objects`: each key is passed to
`handle_delete_internal` (its table lookup supplied by `lookup`, its fresh
uuid by `uuidGen` applied to the loop index); successes are accumulated in
`ret_deleted` (omitted when `quiet`), errors in `ret_errors`. -/
def deleteLoop (now : Nat) (lookup : String → Option Object)
    (uuidGen : Nat → UUID) (quiet : Bool) :
    List DeleteObject → Nat → List Deleted × List DeleteError
  | [], _ => ([], [])
  | obj :: rest, i =>
    let (ds, es) := deleteLoop now lookup uuidGen quiet rest (i + 1)
    match handle_delete_internal now (lookup obj.key) (uuidGen i) with
    | .ok ((deleted_version, delete_marker_version), _) =>
      if quiet then (ds, es)
      else (⟨obj.key, deleted_version, delete_marker_version⟩ :: ds, es)
    | .error e => (ds, ⟨obj.key, e⟩ :: es)

/-- `handle_delete_objects`, from the point where the request body has been
parsed into an XML tree: a failed `parse_delete_objects_xml` is rejected
with `BadRequest("Invalid delete XML query")` by `ok_or_bad_request` before
any key is processed; otherwise every key is processed and the two response
lists are returned. -/
def handle_delete_objects (now : Nat) (lookup : String → Option Object)
    (uuidGen : Nat → UUID) (docChildren : List XmlNode) :
    Except SpecError (List Deleted × List DeleteError) :=
  match parse_delete_objects_xml docChildren with
  | none => .error (.badRequest ("Invalid delete XML query"))
  | some cmd => .ok (deleteLoop now lookup uuidGen cmd.quiet cmd.objects 0)

/-! ## `check_quotas` (`src/api/s3/put.rs`, lines 264-326)

The i64 counter arithmetic is modelled over `Int` (the claims live far below
the 2^63 overflow boundary); `u64` quantities (`size` and the quota limits)
are `Nat`, cast to `Int` where the source writes `as i64`. -/

/-- Bucket quotas.  Modelled from the spec: `BucketQuotas` lives in the
external bucket table; the spec gives `{max_objects?, max_size?}`. -/
structure BucketQuotas where
  max_size : Option Nat
  max_objects : Option Nat
deriving Repr, DecidableEq

/-- `check_quotas(ctx, size, prev_object)`.  External inputs are passed
explicitly: `currentObjects`/`currentBytes` are the gossiped cluster-wide
counters for the bucket (`counters.get(OBJECTS/BYTES)` with default 0), and
`prevCounts` is `prev_object.map(|o| o.counts())` projected to its
`(objects, bytes)` pair (defaulting to `(0, 0)` when absent).  The early
return when no quota is set skips the counter fetch; otherwise
`cnt_obj_diff = 1 - prev_cnt_obj` and `cnt_size_diff = size as i64 -
prev_cnt_size` are checked against each quota in turn. -/
def check_quotas (quotas : BucketQuotas) (currentObjects currentBytes : Int)
    (prevCounts : Option (Int × Int)) (size : Nat) : Except SpecError Unit :=
  if quotas.max_objects = none ∧ quotas.max_size = none then .ok ()
  else
    let prev := prevCounts.getD (0, 0)
    let cnt_obj_diff : Int := 1 - prev.1
    let cnt_size_diff : Int := (size : Int) - prev.2
    let size_check : Except SpecError Unit :=
      match quotas.max_size with
      | some ms =>
        if 0 < cnt_size_diff ∧ (ms : Int) < currentBytes + cnt_size_diff then
          .error (.forbidden
            ("Bucket size quota is reached, maximum total size of objects for this bucket: "
              ++ toString ms ++ ". The bucket is already " ++ toString currentBytes
              ++ " bytes, and this object would add " ++ toString cnt_size_diff
              ++ " bytes."))
        else .ok ()
      | none => .ok ()
    match quotas.max_objects with
    | some mo =>
      if 0 < cnt_obj_diff ∧ (mo : Int) < currentObjects + cnt_obj_diff then
        .error (.forbidden
          ("Object quota is reached, maximum objects for this bucket: "
            ++ toString mo))
      else size_check
    | none => size_check

/-! ## Base64 and `ensure_checksum_matches`
(`src/api/s3/put.rs`, lines 237-262)

`BASE64_STANDARD.encode` is the external `base64` crate.  Modelled from the
spec: standard-alphabet base64 with `=` padding. -/

/-- The standard base64 alphabet: `A-Z`, `a-z`, `0-9`, `+`, `/`. -/
def base64Alphabet : List Char :=
  ['A', 'B', 'C', 'D', 'E', 'F', 'G', 'H', 'I', 'J', 'K', 'L', 'M',
   'N', 'O', 'P', 'Q', 'R', 'S', 'T', 'U', 'V', 'W', 'X', 'Y', 'Z',
   'a', 'b', 'c', 'd', 'e', 'f', 'g', 'h', 'i', 'j', 'k', 'l', 'm',
   'n', 'o', 'p', 'q', 'r', 's', 't', 'u', 'v', 'w', 'x', 'y', 'z',
   '0', '1', '2', '3', '4', '5', '6', '7', '8', '9', '+', '/']

/-- The alphabet character for a 6-bit group. -/
def base64Char (n : Nat) : Char :=
  base64Alphabet.getD n '='

/-- Standard base64 encoding of a byte list (3 bytes → 4 characters, with
`=` padding for a trailing group of 1 or 2 bytes). -/
def base64Encode : List Nat → List Char
  | [] => []
  | [b1] =>
    [base64Char (b1 / 4), base64Char (b1 % 4 * 16), '=', '=']
  | [b1, b2] =>
    [base64Char (b1 / 4), base64Char (b1 % 4 * 16 + b2 / 16),
      base64Char (b2 % 16 * 4), '=']
  | b1 :: b2 :: b3 :: rest =>
    base64Char (b1 / 4) :: base64Char (b1 % 4 * 16 + b2 / 16)
      :: base64Char (b2 % 16 * 4 + b3 / 64) :: base64Char (b3 % 64)
      :: base64Encode rest

/-- `str::trim_matches('"')`: strip every leading and every trailing `"`. -/
def trimQuotes (s : List Char) : List Char :=
  ((s.dropWhile (· = '"')).reverse.dropWhile (· = '"')).reverse

/-- A computed SHA-256 digest (`FixedBytes32`): only compared for equality,
so modelled as an abstract identifier. -/
abbrev Sha256Digest := Nat

/-- `ensure_checksum_matches(data_md5sum, data_sha256sum, content_md5,
content_sha256)`: first the sha256 expectation (if supplied) is compared to
the computed digest, then the content-md5 expectation (if supplied) is
compared, after `trim_matches('"')`, to the base64 encoding of the computed
md5. -/
def ensure_checksum_matches (data_md5sum : List Nat)
    (data_sha256sum : Sha256Digest) (content_md5 : Option (List Char))
    (content_sha256 : Option Sha256Digest) : Except SpecError Unit :=
  let sha_check : Except SpecError Unit :=
    match content_sha256 with
    | some expected_sha256 =>
      if expected_sha256 ≠ data_sha256sum then
        .error (.badRequest ("Unable to validate x-amz-content-sha256"))
      else .ok ()
    | none => .ok ()
  let md5_check : Except SpecError Unit :=
    match content_md5 with
    | some expected_md5 =>
      if trimQuotes expected_md5 ≠ base64Encode data_md5sum then
        .error (.badRequest ("Unable to validate content-md5"))
      else .ok ()
    | none => .ok ()
  sha_check.bind fun _ => md5_check

/-! ## `StreamChunker` (`src/api/s3/put.rs`, lines 542-576)

The upstream body is a finite list of `Result<Bytes, Error>` items (the
stream yielding `None` afterwards); bytes are `Nat`, errors are abstract
payloads.  `BytesBuf` (crate `garage_net`) is the chunker's internal byte
buffer; modelled from the spec ("internally buffers received bytes"):
`extend` appends, `len` is the byte count, `take_max(n)` removes and
returns the first `min(n, len)` bytes. -/

/-- Abstract upstream/pipeline error payload. -/
abbrev PErr := Nat

structure StreamChunker where
  stream : List (Except PErr (List Nat))
  read_all : Bool
  block_size : Nat
  buf : List Nat

/-- `StreamChunker::new(stream, block_size)`. -/
def StreamChunker.new (stream : List (Except PErr (List Nat)))
    (block_size : Nat) : StreamChunker :=
  ⟨stream, false, block_size, []⟩

/-- The `while !self.read_all && self.buf.len() < self.block_size` loop of
`StreamChunker::next`: pull the next upstream item; an `Err` propagates via
`block?`, bytes are appended to the buffer, and upstream exhaustion sets
`read_all`. -/
def StreamChunker.fill (c : StreamChunker) : Except PErr StreamChunker :=
  if c.read_all = false ∧ c.buf.length < c.block_size then
    match h : c.stream with
    | [] => .ok { c with read_all := true }
    | .error e :: _ => .error e
    | .ok bytes :: rest =>
      StreamChunker.fill { c with stream := rest, buf := c.buf ++ bytes }
  else .ok c
termination_by c.stream.length
decreasing_by simp [h]

/-- `StreamChunker::next`: after the fill loop, return `None` if the buffer
is empty, else `take_max(block_size)` bytes from the front of the buffer. -/
def StreamChunker.next (c : StreamChunker) :
    Except PErr (Option (List Nat) × StreamChunker) :=
  c.fill.map fun c' =>
    if c'.buf.isEmpty then (none, c')
    else (some (c'.buf.take c'.block_size),
      { c' with buf := c'.buf.drop c'.block_size })

/-- Repeatedly call `next` (at most `fuel` times), collecting the returned
blocks until end-of-stream. -/
def StreamChunker.run (fuel : Nat) (c : StreamChunker) :
    Except PErr (List (List Nat)) :=
  match fuel with
  | 0 => .ok []
  | fuel + 1 =>
    match c.next with
    | .error e => .error e
    | .ok (none, _) => .ok []
    | .ok (some b, c') => (StreamChunker.run fuel c').map (b :: ·)

/-- The bytes an upstream item list will deliver (errors deliver none). -/
def okJoin (l : List (Except PErr (List Nat))) : List Nat :=
  (l.filterMap Except.toOption).flatten

/-- The bytes still to be produced by a chunker: its buffer plus, unless the
upstream has already been exhausted, everything the upstream will deliver. -/
def StreamChunker.available (c : StreamChunker) : List Nat :=
  c.buf ++ (if c.read_all then [] else okJoin c.stream)

/-- Whether every upstream item is an `Ok` chunk. -/
def allOk (l : List (Except PErr (List Nat))) : Bool :=
  l.all fun x => match x with | .ok _ => true | .error _ => false

/-! ## The writer stage of `read_and_put_blocks`
(`src/api/s3/put.rs`, lines 436-488)

The `put_blocks` future is modelled as a deterministic interpreter over:
the sequence of items the writer receives on `block_rx3` (each an `Ok`
block or a pipeline error, the list end being channel closure), an oracle
`wr` giving the result each spawned `put_block_and_meta` future eventually
produces (`none` = `Ok(())`), and a schedule resolving the `tokio::select!`
race.  A block is reduced to its identity and its `unencrypted_len`.

`FuturesOrdered` yields results in push order, so the in-flight set is a
FIFO list whose head is the next future to be awaited.  At each loop
iteration, `write_futs_next` can fire only if `write_futs` is non-empty,
and `recv_next` only if fewer than `PUT_BLOCKS_MAX_PARALLEL` writes are in
flight (otherwise the respective arm is `pending()`); when both can fire
the head of the schedule decides (`true` = the oldest write future
completes first) and is consumed.

The interpreter records, besides the returned `Result`, which write futures
were awaited for their result, which were still in `write_futs` when the
function returned (and were therefore dropped, i.e. cancelled, without
being awaited), and which blocks were accepted (pushed) in the first
place. -/

/-- `PUT_BLOCKS_MAX_PARALLEL`. -/
def PUT_BLOCKS_MAX_PARALLEL : Nat := 3

/-- A block entering the writer stage: an identity and its
`unencrypted_len`. -/
structure WBlock where
  id : Nat
  len : Nat
deriving Repr, DecidableEq

/-- Observable outcome of the writer stage: the returned
`Result<written_bytes>`, the write futures awaited for their result (in
completion order), the write futures dropped un-awaited when the stage
returned, and the blocks accepted into `write_futs` (in push order). -/
structure WriterOut where
  result : Except PErr Nat
  awaited : List WBlock
  dropped : List WBlock
  accepted : List WBlock
deriving Repr

/-- The `while let Some(res) = write_futs.next().await { res?; }` drain that
runs after the receive loop breaks on channel closure: futures are awaited
in push order; the first `Err` is returned by `res?`, dropping the
remaining futures. -/
def drainWrites (wr : WBlock → Option PErr) (written : Nat) :
    List WBlock → WriterOut
  | [] => ⟨.ok written, [], [], []⟩
  | b :: rest =>
    match wr b with
    | some e => ⟨.error e, [b], rest, []⟩
    | none =>
      let r := drainWrites wr written rest
      { r with awaited := b :: r.awaited }

/-- The main `loop` of the writer stage.  `inflight` is the current
`write_futs` content (oldest first), `written` the `written_bytes`
accumulator.  `result?` on a completed write future and `next?` on a
received pipeline error both return from the enclosing future immediately,
dropping whatever `write_futs` still holds; only channel closure (`None`)
breaks into the drain.

The recursion is fuel-indexed so that the interpreter is a total structural
function; each iteration strictly decreases `2 * incoming.length +
inflight.length`, so any fuel above that bound (as supplied by
`put_blocks`) never reaches the out-of-fuel arm. -/
def putBlocksLoop (wr : WBlock → Option PErr) :
    Nat → List Bool → List (Except PErr WBlock) → List WBlock → Nat →
    WriterOut
  | 0, _, _, inflight, _ => ⟨.error 0, [], inflight, []⟩
  | fuel + 1, sched, incoming, inflight, written =>
    match inflight with
    | [] =>
      -- write_futs is empty: its arm is pending(), only recv_next can fire
      match incoming with
      | [] => drainWrites wr written []
      | .error e :: _ => ⟨.error e, [], [], []⟩
      | .ok b :: restIn =>
        let r := putBlocksLoop wr fuel sched restIn [b] (written + b.len)
        { r with accepted := b :: r.accepted }
    | b :: rest =>
      if PUT_BLOCKS_MAX_PARALLEL ≤ (b :: rest).length ∨ sched.headD false
      then
        -- write_futs_next fires: the oldest in-flight future completes
        let sched' :=
          if PUT_BLOCKS_MAX_PARALLEL ≤ (b :: rest).length then sched
          else sched.tail
        match wr b with
        | some e => ⟨.error e, [b], rest, []⟩
        | none =>
          let r := putBlocksLoop wr fuel sched' incoming rest written
          { r with awaited := b :: r.awaited }
      else
        -- recv_next fires
        match incoming with
        | [] => drainWrites wr written (b :: rest)
        | .error e :: _ => ⟨.error e, [], b :: rest, []⟩
        | .ok nb :: restIn =>
          let r := putBlocksLoop wr fuel sched.tail restIn
            ((b :: rest) ++ [nb]) (written + nb.len)
          { r with accepted := nb :: r.accepted }

/-- The whole writer stage: the loop started with no write in flight,
`written_bytes = 0`, and enough fuel (`2 * incoming.length + 1`) that the
out-of-fuel arm is unreachable. -/
def put_blocks (wr : WBlock → Option PErr) (sched : List Bool)
    (incoming : List (Except PErr WBlock)) : WriterOut :=
  putBlocksLoop wr (2 * incoming.length + 1) sched incoming [] 0

/-- A block-write result oracle under which block 1's write fails with
error 7 and every other write succeeds (fixture for the C1 analysis). -/
def wrC1 : WBlock → Option PErr := fun b => if b.id = 1 then some 7 else none

/-! ## Concrete fixtures used by witnesses -/

/-- A sample version list: an aborted version, a complete one, then a newer
aborted one. -/
def sampleVersions : List ObjectVersion :=
  [⟨3, 10, .aborted⟩, ⟨4, 11, .complete .deleteMarker⟩, ⟨6, 12, .aborted⟩]

/-- The sample object holding `sampleVersions`. -/
def sampleObject : Object := ⟨sampleVersions⟩

/-! # Claims -/

/-- C3: for `BlockRef` entries with the same `(block, version)` key, `merge`
computes `deleted` as the logical OR of the two entries' flags; merge is
commutative (on same-key entries), associative and idempotent, and merging
a `deleted=true` entry with a `deleted=false` one yields `deleted=true` in
either order. -/
theorem blockRef_merge_crdt (a b c : BlockRef)
    (hb : b.block = a.block) (hv : b.version = a.version) :
    (a.merge b).deleted = (a.deleted || b.deleted) ∧
    a.merge b = b.merge a ∧
    (a.merge b).merge c = a.merge (b.merge c) ∧
    a.merge a = a ∧
    ((a.merge b).deleted = true ↔ a.deleted = true ∨ b.deleted = true) := by
  obtain ⟨ab, av, ad⟩ := a
  obtain ⟨bb, bv, bd⟩ := b
  obtain ⟨cb, cv, cd⟩ := c
  simp only at hb hv
  subst hb hv
  cases ad <;> cases bd <;> cases cd <;>
    simp [BlockRef.merge]

/-- C3 witness. -/
theorem blockRef_merge_crdt_witness :
    ((5 : Hash) = 5 ∧ (9 : UUID) = 9) ∧
    ((BlockRef.merge ⟨5, 9, false⟩ ⟨5, 9, true⟩).deleted
        = (false || true) ∧
      BlockRef.merge ⟨5, 9, false⟩ ⟨5, 9, true⟩
        = BlockRef.merge ⟨5, 9, true⟩ ⟨5, 9, false⟩ ∧
      (BlockRef.merge ⟨5, 9, false⟩ ⟨5, 9, true⟩).merge ⟨5, 9, false⟩
        = BlockRef.merge ⟨5, 9, false⟩ (BlockRef.merge ⟨5, 9, true⟩ ⟨5, 9, false⟩) ∧
      BlockRef.merge ⟨5, 9, false⟩ ⟨5, 9, false⟩ = ⟨5, 9, false⟩ ∧
      ((BlockRef.merge ⟨5, 9, false⟩ ⟨5, 9, true⟩).deleted = true ↔
        (false = true ∨ true = true))) :=
  ⟨⟨rfl, rfl⟩, blockRef_merge_crdt ⟨5, 9, false⟩ ⟨5, 9, true⟩ ⟨5, 9, false⟩ rfl rfl⟩

/-- C9: `BlockRefTable::updated` panics (modelled as `none`) exactly when
both `old` and `new` are `None` (the `unwrap` of `old.as_ref().or(new.as_ref())`);
whenever at least one is present the hook returns normally. -/
theorem blockRefTable_updated_total (old new : Option BlockRef) :
    BlockRefTable.updated none none = none ∧
    (old.isSome ∨ new.isSome → (BlockRefTable.updated old new).isSome) := by
  refine ⟨rfl, fun h => ?_⟩
  rcases old with _ | o <;> rcases new with _ | n <;>
    simp_all [BlockRefTable.updated, Option.or]

/-- C9 witness. -/
theorem blockRefTable_updated_total_witness :
    BlockRefTable.updated none none = none ∧
    ((some (BlockRef.mk 5 9 false)).isSome ∨ (none : Option BlockRef).isSome →
      (BlockRefTable.updated (some (BlockRef.mk 5 9 false)) none).isSome) :=
  blockRefTable_updated_total (some (BlockRef.mk 5 9 false)) none

/-- C2: under the hook's precondition (at least one entry present),
`BlockRefTable::updated(old, new)` attempts `block_incref` exactly when the
new entry is present with `deleted=false` while the old one is absent or
deleted, attempts `block_decref` exactly when the old entry is present with
`deleted=false` while the new one is absent or deleted, attempts nothing
else, and — whatever results the block manager returns for those calls —
never propagates a failure (the hook's run is the same list of attempted
calls, failures counted only into the warning log). -/
theorem blockRefTable_updated_edge (old new : Option BlockRef)
    (h : old.isSome ∨ new.isSome) :
    ∃ fst calls, old.or new = some fst ∧
      BlockRefTable.updated old new = some calls ∧
      (RefCall.incref fst.block ∈ calls ↔
        ((∃ n, new = some n ∧ n.deleted = false) ∧
          ¬(∃ o, old = some o ∧ o.deleted = false))) ∧
      (RefCall.decref fst.block ∈ calls ↔
        ((∃ o, old = some o ∧ o.deleted = false) ∧
          ¬(∃ n, new = some n ∧ n.deleted = false))) ∧
      (∀ call ∈ calls,
        call = RefCall.incref fst.block ∨ call = RefCall.decref fst.block) ∧
      (∀ refRes, (BlockRefTable.updatedRun refRes old new).map Prod.fst
        = some calls) := by
  rcases old with _ | o <;> rcases new with _ | n
  · simp at h
  · refine ⟨n, _, rfl, rfl, ?_⟩
    cases hd : n.deleted <;>
      simp [BlockRefTable.updated, BlockRefTable.updatedRun, Option.or, hd]
  · refine ⟨o, _, rfl, rfl, ?_⟩
    cases hd : o.deleted <;>
      simp [BlockRefTable.updated, BlockRefTable.updatedRun, Option.or, hd]
  · refine ⟨o, _, rfl, rfl, ?_⟩
    cases hd : o.deleted <;> cases hn : n.deleted <;>
      simp [BlockRefTable.updated, BlockRefTable.updatedRun, Option.or, hd, hn]

/-- C2 witness. -/
theorem blockRefTable_updated_edge_witness :
    ((some (BlockRef.mk 5 9 true)).isSome ∨
      (some (BlockRef.mk 5 9 false)).isSome) ∧
    (∃ fst calls,
      (some (BlockRef.mk 5 9 true)).or (some (BlockRef.mk 5 9 false))
        = some fst ∧
      BlockRefTable.updated (some (BlockRef.mk 5 9 true))
        (some (BlockRef.mk 5 9 false)) = some calls ∧
      (RefCall.incref fst.block ∈ calls ↔
        ((∃ n, some (BlockRef.mk 5 9 false) = some n ∧ n.deleted = false) ∧
          ¬(∃ o, some (BlockRef.mk 5 9 true) = some o ∧ o.deleted = false))) ∧
      (RefCall.decref fst.block ∈ calls ↔
        ((∃ o, some (BlockRef.mk 5 9 true) = some o ∧ o.deleted = false) ∧
          ¬(∃ n, some (BlockRef.mk 5 9 false) = some n ∧ n.deleted = false))) ∧
      (∀ call ∈ calls,
        call = RefCall.incref fst.block ∨ call = RefCall.decref fst.block) ∧
      (∀ refRes, (BlockRefTable.updatedRun refRes
          (some (BlockRef.mk 5 9 true)) (some (BlockRef.mk 5 9 false))).map
            Prod.fst = some calls)) :=
  ⟨Or.inl rfl,
    blockRefTable_updated_edge (some (BlockRef.mk 5 9 true))
      (some (BlockRef.mk 5 9 false)) (Or.inl rfl)⟩

/-- C7: `next_timestamp` returns `now_msec()` when there is no existing
object or it has no versions, and otherwise `max(now_msec(), max existing
timestamp + 1)`; consequently it is strictly greater than the timestamp of
every existing version. -/
theorem next_timestamp_spec (now : Nat) (o : Object) :
    next_timestamp now none = now ∧
    (o.versions = [] → next_timestamp now (some o) = now) ∧
    (∀ t, (o.versions.map (·.timestamp)).max? = some t →
      next_timestamp now (some o) = max now (t + 1)) ∧
    (∀ v ∈ o.versions, v.timestamp < next_timestamp now (some o)) := by
  refine ⟨rfl, fun h => by simp [next_timestamp, h], fun t ht => ?_, ?_⟩
  · simp [next_timestamp, ht, Nat.max_comm]
  · intro v hv
    have hmem : v.timestamp ∈ o.versions.map (·.timestamp) :=
      List.mem_map_of_mem _ hv
    rcases hmax : (o.versions.map (·.timestamp)).max? with _ | t
    · rw [List.max?_eq_none_iff] at hmax
      simp [hmax] at hmem
    · have hle : v.timestamp ≤ t := (List.max?_eq_some_iff'.mp hmax).2 _ hmem
      simp [next_timestamp, hmax]
      omega

/-- Helper: `dropWhile` is the identity on a list none of whose elements
satisfy the predicate. -/
theorem dropWhile_of_all_neg {α : Type} (p : α → Bool) (l : List α)
    (h : ∀ a ∈ l, p a = false) : l.dropWhile p = l := by
  cases l with
  | nil => simp
  | cons a t =>
    rw [List.dropWhile_cons_of_neg]
    simp [h a (by simp)]

/-- Helper: no base64 output character is a double quote. -/
theorem base64Char_ne_quote (n : Nat) : base64Char n ≠ '"' := by
  unfold base64Char
  by_cases h : n < base64Alphabet.length
  · rw [List.getD_eq_getElem _ _ h]
    have hall : ∀ c ∈ base64Alphabet, c ≠ '"' := by decide
    exact hall _ (List.getElem_mem h)
  · rw [List.getD_eq_default _ _ (Nat.le_of_not_lt h)]
    decide

/-- Helper: no character of a base64 encoding is a double quote. -/
theorem base64Encode_ne_quote (bs : List Nat) :
    ∀ ch ∈ base64Encode bs, ch ≠ '"' := by
  induction bs using base64Encode.induct with
  | case1 => simp [base64Encode]
  | case2 b1 =>
    simp only [base64Encode, List.mem_cons, List.not_mem_nil, or_false]
    rintro ch (rfl | rfl | rfl | rfl) <;>
      first | exact base64Char_ne_quote _ | decide
  | case3 b1 b2 =>
    simp only [base64Encode, List.mem_cons, List.not_mem_nil, or_false]
    rintro ch (rfl | rfl | rfl | rfl) <;>
      first | exact base64Char_ne_quote _ | decide
  | case4 b1 b2 b3 rest ih =>
    simp only [base64Encode, List.mem_cons]
    rintro ch (rfl | rfl | rfl | rfl | hm) <;>
      first | exact base64Char_ne_quote _ | exact ih ch hm

/-- Helper: `trim_matches('"')` strips one wrapping pair of quotes from a
quote-free string. -/
theorem trimQuotes_wrap (s : List Char) (hs : ∀ ch ∈ s, ch ≠ '"') :
    trimQuotes ('"' :: (s ++ ['"'])) = s := by
  unfold trimQuotes
  rw [List.dropWhile_cons_of_pos (by simp)]
  cases s with
  | nil => simp
  | cons c s' =>
    have hc : (decide (c = '"')) = false := by
      simp [hs c (by simp)]
    rw [List.cons_append, List.dropWhile_cons_of_neg (by simp [hc])]
    rw [List.reverse_cons, List.reverse_append]
    simp only [List.reverse_cons, List.reverse_nil, List.nil_append,
      List.cons_append, List.append_assoc]
    rw [List.dropWhile_cons_of_pos (by simp)]
    rw [dropWhile_of_all_neg _ _ ?hneg]
    · simp
    case hneg =>
      intro a ha
      have : a ∈ c :: s' := by
        rcases List.mem_append.mp ha with h1 | h2
        · exact List.mem_cons_of_mem _ (List.mem_reverse.mp h1)
        · simp at h2
          simp [h2]
      simp [hs a this]

/-- C7 witness. -/
theorem next_timestamp_spec_witness :
    next_timestamp 100 none = 100 ∧
    ((Object.mk [⟨7, 50, .aborted⟩]).versions = [] →
      next_timestamp 100 (some (Object.mk [⟨7, 50, .aborted⟩])) = 100) ∧
    (∀ t, ((Object.mk [⟨7, 50, .aborted⟩]).versions.map (·.timestamp)).max?
        = some t →
      next_timestamp 100 (some (Object.mk [⟨7, 50, .aborted⟩]))
        = max 100 (t + 1)) ∧
    (∀ v ∈ (Object.mk [⟨7, 50, .aborted⟩]).versions,
      v.timestamp < next_timestamp 100 (some (Object.mk [⟨7, 50, .aborted⟩]))) :=
  next_timestamp_spec 100 (Object.mk [⟨7, 50, .aborted⟩])

/-- C4: `check_quotas` rejects (with a `Forbidden` error) if and only if,
with `Δobjects = 1 - prev_object_count` (0 counts when there is no previous
object) and `Δbytes = size - prev_byte_count`, either `max_objects` is set
with `Δobjects > 0` and `current_objects + Δobjects > max_objects`, or
`max_size` is set with `Δbytes > 0` and
`current_bytes + Δbytes > max_size`; in particular a replacement whose two
deltas are not positive is always accepted. -/
theorem check_quotas_spec (quotas : BucketQuotas)
    (currentObjects currentBytes : Int) (prevCounts : Option (Int × Int))
    (size : Nat) :
    ((∃ e, check_quotas quotas currentObjects currentBytes prevCounts size
        = .error e) ↔
      ((∃ mo, quotas.max_objects = some mo ∧
          0 < 1 - (prevCounts.getD (0, 0)).1 ∧
          (mo : Int) < currentObjects + (1 - (prevCounts.getD (0, 0)).1)) ∨
       (∃ ms, quotas.max_size = some ms ∧
          0 < (size : Int) - (prevCounts.getD (0, 0)).2 ∧
          (ms : Int) < currentBytes
            + ((size : Int) - (prevCounts.getD (0, 0)).2)))) ∧
    (∀ e, check_quotas quotas currentObjects currentBytes prevCounts size
        = .error e → ∃ msg, e = .forbidden msg) ∧
    (1 - (prevCounts.getD (0, 0)).1 ≤ 0 →
      (size : Int) - (prevCounts.getD (0, 0)).2 ≤ 0 →
      check_quotas quotas currentObjects currentBytes prevCounts size
        = .ok ()) := by
  obtain ⟨msq, moq⟩ := quotas
  rcases moq with _ | mo <;> rcases msq with _ | ms <;>
    simp only [check_quotas] <;> split_ifs <;>
    simp_all

/-- C4 witness. -/
theorem check_quotas_spec_witness :
    ((∃ e, check_quotas ⟨some 100, some 10⟩ 10 90 (some (1, 50)) 40
        = .error e) ↔
      ((∃ mo, (BucketQuotas.mk (some 100) (some 10)).max_objects = some mo ∧
          0 < 1 - ((some ((1 : Int), (50 : Int))).getD (0, 0)).1 ∧
          (mo : Int) < 10 + (1 - ((some ((1 : Int), (50 : Int))).getD (0, 0)).1)) ∨
       (∃ ms, (BucketQuotas.mk (some 100) (some 10)).max_size = some ms ∧
          0 < ((40 : Nat) : Int) - ((some ((1 : Int), (50 : Int))).getD (0, 0)).2 ∧
          (ms : Int) < 90
            + (((40 : Nat) : Int) - ((some ((1 : Int), (50 : Int))).getD (0, 0)).2)))) ∧
    (∀ e, check_quotas ⟨some 100, some 10⟩ 10 90 (some (1, 50)) 40
        = .error e → ∃ msg, e = .forbidden msg) ∧
    (1 - ((some ((1 : Int), (50 : Int))).getD (0, 0)).1 ≤ 0 →
      ((40 : Nat) : Int) - ((some ((1 : Int), (50 : Int))).getD (0, 0)).2 ≤ 0 →
      check_quotas ⟨some 100, some 10⟩ 10 90 (some (1, 50)) 40 = .ok ()) :=
  check_quotas_spec ⟨some 100, some 10⟩ 10 90 (some (1, 50)) 40

/-- C5: `ensure_checksum_matches` returns `Ok` exactly when every supplied
expectation matches: a supplied sha256 differing from the computed digest
fails first with `BadRequest("Unable to validate x-amz-content-sha256")`;
otherwise a supplied content-md5 that, after stripping surrounding quotes,
differs from `base64(md5)` fails with
`BadRequest("Unable to validate content-md5")`; a correct content-md5
wrapped in double quotes is accepted; absent expectations are never
checked. -/
theorem ensure_checksum_matches_spec (md5 : List Nat) (sha : Sha256Digest)
    (cmd5 : Option (List Char)) (csha : Option Sha256Digest) :
    (ensure_checksum_matches md5 sha cmd5 csha = .ok () ↔
      ((∀ s, csha = some s → s = sha) ∧
       (∀ m, cmd5 = some m → trimQuotes m = base64Encode md5))) ∧
    (∀ s, csha = some s → s ≠ sha →
      ensure_checksum_matches md5 sha cmd5 csha
        = .error (.badRequest ("Unable to validate x-amz-content-sha256"))) ∧
    (∀ m, (∀ s, csha = some s → s = sha) → cmd5 = some m →
      trimQuotes m ≠ base64Encode md5 →
      ensure_checksum_matches md5 sha cmd5 csha
        = .error (.badRequest ("Unable to validate content-md5"))) ∧
    ((∀ s, csha = some s → s = sha) →
      cmd5 = some ('"' :: (base64Encode md5 ++ ['"'])) →
      ensure_checksum_matches md5 sha cmd5 csha = .ok ()) := by
  have hwrap : trimQuotes ('"' :: (base64Encode md5 ++ ['"']))
      = base64Encode md5 :=
    trimQuotes_wrap _ (base64Encode_ne_quote md5)
  rcases csha with _ | s <;> rcases cmd5 with _ | m <;>
    simp only [ensure_checksum_matches, Except.bind]
  · simp
  · split_ifs with hm <;> simp_all
    rintro rfl
    simp_all
  · split_ifs with hs <;> simp_all
  · split_ifs with hs hm <;> simp_all
    rintro rfl
    simp_all

/-- C5 witness. -/
theorem ensure_checksum_matches_spec_witness :
    (ensure_checksum_matches [1, 2] 7 (some ['A', 'Q', 'I', '=']) (some 7)
        = .ok () ↔
      ((∀ s, (some (7 : Sha256Digest)) = some s → s = 7) ∧
       (∀ m, (some ['A', 'Q', 'I', '=']) = some m →
          trimQuotes m = base64Encode [1, 2]))) ∧
    (∀ s, (some (7 : Sha256Digest)) = some s → s ≠ 7 →
      ensure_checksum_matches [1, 2] 7 (some ['A', 'Q', 'I', '=']) (some 7)
        = .error (.badRequest ("Unable to validate x-amz-content-sha256"))) ∧
    (∀ m, (∀ s, (some (7 : Sha256Digest)) = some s → s = 7) →
      (some ['A', 'Q', 'I', '=']) = some m →
      trimQuotes m ≠ base64Encode [1, 2] →
      ensure_checksum_matches [1, 2] 7 (some ['A', 'Q', 'I', '=']) (some 7)
        = .error (.badRequest ("Unable to validate content-md5"))) ∧
    ((∀ s, (some (7 : Sha256Digest)) = some s → s = 7) →
      (some ['A', 'Q', 'I', '=']) = some ('"' :: (base64Encode [1, 2] ++ ['"'])) →
      ensure_checksum_matches [1, 2] 7 (some ['A', 'Q', 'I', '=']) (some 7)
        = .ok ()) :=
  ensure_checksum_matches_spec [1, 2] 7 (some ['A', 'Q', 'I', '=']) (some 7)

/-- Helper: searching a reversed list finds the last matching element. -/
theorem reverse_find?_eq_filter_getLast? {α : Type} (p : α → Bool)
    (l : List α) : l.reverse.find? p = (l.filter p).getLast? := by
  induction l with
  | nil => rfl
  | cons a t ih =>
    rw [List.reverse_cons, List.find?_append, ih, List.filter_cons]
    cases hpa : p a
    · simp [List.find?_cons, hpa]
    · cases hft : (t.filter p).getLast? with
      | none =>
        have h0 : t.filter p = [] := List.getLast?_eq_none_iff.mp hft
        simp [h0, List.find?_cons, hpa]
      | some w =>
        have hne : t.filter p ≠ [] := by
          intro h
          rw [h] at hft
          simp at hft
        obtain ⟨x, xs, hxx⟩ := List.exists_cons_of_ne_nil hne
        rw [if_pos rfl, hxx, List.getLast?_cons_cons, ← hxx, hft]
        simp

/-- C8: the `deleted_version` reported by `handle_delete_internal` is the
uuid of the newest (last, the list being ascending) version whose state is
not `Aborted` when one exists, else the newest version of any state, else
the all-zero uuid — and in every case, the empty-version-list case
included, the function still returns `Ok` (the zero uuid is only logged,
never signaled as an error). -/
theorem deleted_version_spec (versions : List ObjectVersion) (now : Nat)
    (del_uuid : UUID) (obj : Object) :
    (∀ w, (versions.filter (fun v => !v.state.isAborted)).getLast? = some w →
      deleted_version_of versions = w.uuid) ∧
    ((∀ v ∈ versions, v.state.isAborted = true) →
      ∀ w, versions.getLast? = some w →
        deleted_version_of versions = w.uuid) ∧
    (versions = [] → deleted_version_of versions = zeroUuid) ∧
    (handle_delete_internal now (some obj) del_uuid
      = .ok ((deleted_version_of obj.versions, del_uuid),
          ⟨[⟨del_uuid, next_timestamp now (some obj),
            .complete .deleteMarker⟩]⟩)) := by
  refine ⟨fun w hw => ?_, fun hall w hw => ?_, fun h => by subst h; rfl, rfl⟩
  · unfold deleted_version_of
    rw [reverse_find?_eq_filter_getLast?, hw]
    rfl
  · have hfilter : versions.filter (fun v => !v.state.isAborted) = [] := by
      rw [List.filter_eq_nil_iff]
      intro v hv
      simp [hall v hv]
    unfold deleted_version_of
    rw [reverse_find?_eq_filter_getLast?, hfilter]
    simp [List.head?_reverse, hw]

/-- C8 witness. -/
theorem deleted_version_spec_witness :
    (∀ w, (sampleVersions.filter
          (fun v => !v.state.isAborted)).getLast? = some w →
      deleted_version_of sampleVersions = w.uuid) ∧
    ((∀ v ∈ sampleVersions, v.state.isAborted = true) →
      ∀ w, sampleVersions.getLast? = some w →
        deleted_version_of sampleVersions = w.uuid) ∧
    (sampleVersions = [] →
      deleted_version_of sampleVersions = zeroUuid) ∧
    (handle_delete_internal 100 (some sampleObject) 9
      = .ok ((deleted_version_of sampleObject.versions, 9),
          ⟨[⟨9, next_timestamp 100 (some sampleObject),
            .complete .deleteMarker⟩]⟩)) :=
  deleted_version_spec sampleVersions 100 9 sampleObject

/-- Helper: a successful `parseDeleteItems` run means every child was a
well-formed `<Object>` (with a `<Key>` child that has text) or a `<Quiet>`
with text. -/
theorem parseDeleteItems_sound (items : List XmlNode) :
    ∀ (ret r : DeleteRequest), parseDeleteItems items ret = some r →
      ∀ item ∈ items,
        (item.hasTagName ("Object") = true ∧
          ∃ k, item.children.find? (fun e => e.hasTagName ("Key")) = some k ∧
            (k.text?).isSome) ∨
        (item.hasTagName ("Quiet") = true ∧ (item.text?).isSome) := by
  induction items with
  | nil =>
    intro ret r _ item hm
    simp at hm
  | cons it rest ih =>
    intro ret r h item hm
    simp only [parseDeleteItems] at h
    by_cases hobj : it.hasTagName ("Object") = true
    · rw [if_pos hobj] at h
      cases hk : it.children.find? (fun e => e.hasTagName ("Key")) with
      | none => simp [hk] at h
      | some k =>
        simp only [hk] at h
        cases ht : k.text? with
        | none => simp [ht] at h
        | some s =>
          simp only [ht] at h
          rcases List.mem_cons.mp hm with rfl | hm'
          · exact Or.inl ⟨hobj, k, hk, by simp [ht]⟩
          · exact ih _ _ h item hm'
    · rw [if_neg hobj] at h
      by_cases hq : it.hasTagName ("Quiet") = true
      · rw [if_pos hq] at h
        cases ht : it.text? with
        | none => simp [ht] at h
        | some t =>
          simp only [ht] at h
          rcases List.mem_cons.mp hm with rfl | hm'
          · exact Or.inr ⟨hq, by simp [ht]⟩
          · exact ih _ _ h item hm'
      · rw [if_neg hq] at h
        exact absurd h (by simp)

/-- Helper: the `parseDeleteItems` fold splits over list append. -/
theorem parseDeleteItems_append (l₁ l₂ : List XmlNode) :
    ∀ ret : DeleteRequest, parseDeleteItems (l₁ ++ l₂) ret
      = (parseDeleteItems l₁ ret).bind (fun r => parseDeleteItems l₂ r) := by
  induction l₁ with
  | nil => intro ret; rfl
  | cons it rest ih =>
    intro ret
    simp only [List.cons_append, parseDeleteItems]
    by_cases hobj : it.hasTagName ("Object") = true
    · rw [if_pos hobj, if_pos hobj]
      cases hk : it.children.find? (fun e => e.hasTagName ("Key")) with
      | none => simp [hk]
      | some k =>
        cases ht : k.text? with
        | none => simp [hk, ht]
        | some s => simp only [hk, ht]; exact ih _
    · rw [if_neg hobj, if_neg hobj]
      by_cases hq : it.hasTagName ("Quiet") = true
      · rw [if_pos hq, if_pos hq]
        cases ht : it.text? with
        | none => simp [ht]
        | some t => simp only [ht]; exact ih _
      · rw [if_neg hq, if_neg hq]
        rfl

/-- C10: `parse_delete_objects_xml` returns `None` — in which case
`handle_delete_objects` rejects the whole batch with
`BadRequest("Invalid delete XML query")` before processing any key —
whenever the root element is not `<Delete>`; and a successful parse is only
possible when every child of `<Delete>` is an `<Object>` with a `<Key>`
child that has text, or a `<Quiet>` with text (so any offending child
forces `None`); a trailing `<Quiet>` element sets `quiet` to whether its
text equals `"true"`, overriding whatever came before. -/
theorem parse_delete_objects_xml_spec (now : Nat)
    (lookup : String → Option Object) (uuidGen : Nat → UUID)
    (doc : List XmlNode) (delete : XmlNode) (rest items : List XmlNode)
    (t : String) :
    parse_delete_objects_xml [] = none ∧
    (delete.hasTagName ("Delete") = false →
      parse_delete_objects_xml (delete :: rest) = none) ∧
    (∀ r, parse_delete_objects_xml (delete :: rest) = some r →
      ∀ item ∈ delete.children,
        (item.hasTagName ("Object") = true ∧
          ∃ k, item.children.find? (fun e => e.hasTagName ("Key")) = some k ∧
            (k.text?).isSome) ∨
        (item.hasTagName ("Quiet") = true ∧ (item.text?).isSome)) ∧
    (parse_delete_objects_xml
        [.element ("Delete") (items ++ [.element ("Quiet") [.text t]])]
      = (parse_delete_objects_xml [.element ("Delete") items]).map
          (fun r => { r with quiet := t == "true" })) ∧
    (parse_delete_objects_xml doc = none →
      handle_delete_objects now lookup uuidGen doc
        = .error (.badRequest ("Invalid delete XML query"))) := by
  refine ⟨rfl, fun h => ?_, fun r hr => ?_, ?_, fun h => ?_⟩
  · simp [parse_delete_objects_xml, h]
  · simp only [parse_delete_objects_xml, List.head?_cons] at hr
    by_cases htag : delete.hasTagName ("Delete") = true
    · rw [if_pos htag] at hr
      exact parseDeleteItems_sound _ _ _ hr
    · rw [if_neg htag] at hr
      exact absurd hr (by simp)
  · have hD : ∀ cs : List XmlNode,
        (XmlNode.element ("Delete") cs).hasTagName ("Delete") = true := by
      intro cs
      simp [XmlNode.hasTagName]
    simp only [parse_delete_objects_xml, List.head?_cons, hD, if_pos,
      XmlNode.children]
    rw [parseDeleteItems_append]
    cases hres : parseDeleteItems items ⟨false, []⟩ with
    | none => rfl
    | some r =>
      simp [parseDeleteItems, XmlNode.hasTagName, XmlNode.text?,
        XmlNode.children]
  · simp [handle_delete_objects, h]

/-- C10 witness. -/
theorem parse_delete_objects_xml_spec_witness :
    parse_delete_objects_xml [] = none ∧
    ((XmlNode.element ("Del") []).hasTagName ("Delete") = false →
      parse_delete_objects_xml [XmlNode.element ("Del") []] = none) ∧
    (∀ r, parse_delete_objects_xml [XmlNode.element ("Del") []] = some r →
      ∀ item ∈ (XmlNode.element ("Del") []).children,
        (item.hasTagName ("Object") = true ∧
          ∃ k, item.children.find? (fun e => e.hasTagName ("Key")) = some k ∧
            (k.text?).isSome) ∨
        (item.hasTagName ("Quiet") = true ∧ (item.text?).isSome)) ∧
    (parse_delete_objects_xml
        [.element ("Delete")
          ([XmlNode.element ("Quiet") [XmlNode.text ("true")]]
            ++ [.element ("Quiet") [.text ("no")]])]
      = (parse_delete_objects_xml
          [.element ("Delete")
            [XmlNode.element ("Quiet") [XmlNode.text ("true")]]]).map
          (fun r => { r with quiet := ("no" == "true") })) ∧
    (parse_delete_objects_xml [XmlNode.element ("Del") []] = none →
      handle_delete_objects 0 (fun _ => none) (fun _ => 0)
          [XmlNode.element ("Del") []]
        = .error (.badRequest ("Invalid delete XML query"))) :=
  parse_delete_objects_xml_spec 0 (fun _ => none) (fun _ => 0)
    [XmlNode.element ("Del") []] (XmlNode.element ("Del") [])
    [] [XmlNode.element ("Quiet") [XmlNode.text ("true")]] ("no")

/-- Helper: on an error-free upstream the fill loop never fails, preserves
the bytes still to be produced, and stops only with a full buffer or an
exhausted upstream. -/
theorem fill_ok (c : StreamChunker) (hok : allOk c.stream = true)
    (hra : c.read_all = true → c.stream = []) :
    ∃ c', c.fill = .ok c' ∧
      c'.block_size = c.block_size ∧
      allOk c'.stream = true ∧
      (c'.read_all = true → c'.stream = []) ∧
      c'.available = c.available ∧
      (c'.read_all = true ∨ c.block_size ≤ c'.buf.length) := by
  revert hok hra
  induction c using StreamChunker.fill.induct with
  | case1 c hcond h =>
    intro hok hra
    refine ⟨{ c with read_all := true }, ?_, rfl, hok, fun _ => h, ?_,
      Or.inl rfl⟩
    · rw [StreamChunker.fill, if_pos hcond]
      split <;> simp_all
    · simp [StreamChunker.available, hcond.1, h, okJoin]
  | case2 c hcond e t h =>
    intro hok hra
    rw [h] at hok
    simp [allOk] at hok
  | case3 c hcond bytes rest h ih =>
    intro hok hra
    have hok' : allOk rest = true := by
      rw [h] at hok
      simp [allOk] at hok ⊢
      exact hok
    obtain ⟨c', hfill, hbs, hok2, hra2, hav, hpost⟩ :=
      ih hok' (fun hcontra => absurd (show c.read_all = true from hcontra)
        (by simp [hcond.1]))
    refine ⟨c', ?_, hbs, hok2, hra2, ?_, hpost⟩
    · rw [StreamChunker.fill, if_pos hcond]
      split <;> simp_all
    · rw [hav]
      simp [StreamChunker.available, hcond.1, h, okJoin, List.filterMap_cons,
        Except.toOption]
  | case4 c hcond =>
    intro hok hra
    refine ⟨c, ?_, rfl, hok, hra, rfl, ?_⟩
    · rw [StreamChunker.fill, if_neg hcond]
    · by_cases hr : c.read_all = true
      · exact Or.inl hr
      · right
        have hb : ¬ c.buf.length < c.block_size := fun hl =>
          hcond ⟨by simp at hr; exact hr, hl⟩
        omega

/-- Helper: with enough fuel, draining an error-free chunker produces
full-size blocks (the last possibly shorter but never empty) whose
concatenation is exactly the bytes available. -/
theorem run_spec (fuel : Nat) :
    ∀ (c : StreamChunker), 1 ≤ c.block_size → allOk c.stream = true →
    (c.read_all = true → c.stream = []) → c.available.length < fuel →
    ∃ bl, StreamChunker.run fuel c = .ok bl ∧
      bl.flatten = c.available ∧
      (∀ b ∈ bl.dropLast, b.length = c.block_size) ∧
      (∀ b ∈ bl, 1 ≤ b.length ∧ b.length ≤ c.block_size) := by
  induction fuel with
  | zero =>
    intro c _ _ _ hf
    exact absurd hf (Nat.not_lt_zero _)
  | succ n ihn =>
    intro c hbs hok hra hf
    obtain ⟨c', hfill, hbs', hok', hra', hav, hpost⟩ := fill_ok c hok hra
    by_cases hempty : c'.buf.isEmpty
    · have hbuf : c'.buf = [] := by simpa [List.isEmpty_iff] using hempty
      have hread : c'.read_all = true := by
        rcases hpost with hr | hlen
        · exact hr
        · rw [hbuf] at hlen
          simp at hlen
          omega
      have hav0 : c'.available = [] := by
        simp [StreamChunker.available, hbuf, hread]
      refine ⟨[], ?_, ?_, by simp, by simp⟩
      · simp [StreamChunker.run, StreamChunker.next, hfill, hempty,
          Except.map, hbuf]
      · simp [← hav, hav0]
    · have hbuf : ¬ c'.buf = [] := by simpa [List.isEmpty_iff] using hempty
      have hbufpos : 1 ≤ c'.buf.length := by
        cases hb0 : c'.buf
        · exact absurd hb0 hbuf
        · simp
      set b := c'.buf.take c'.block_size with hb
      set c₂ : StreamChunker := { c' with buf := c'.buf.drop c'.block_size }
        with hc₂
      have hbs₂ : 1 ≤ c₂.block_size := by
        rw [hc₂]
        simp [hbs' ▸ hbs]
      have hlenb : 1 ≤ b.length ∧ b.length ≤ c.block_size := by
        rw [hb]
        simp [List.length_take, hbs']
        constructor
        · omega
        · omega
      have hlen₂ : c₂.available.length + b.length = c'.available.length := by
        simp [StreamChunker.available, hc₂, hb, List.length_take,
          List.length_drop]
        omega
      have havail₂ : c₂.available.length < n := by
        have hfe : c'.available.length = c.available.length := by rw [hav]
        omega
      obtain ⟨bl, hrun, hflat, hdrop, hall⟩ :=
        ihn c₂ hbs₂ hok' hra' havail₂
      have hjoin : b ++ c₂.available = c'.available := by
        simp only [StreamChunker.available, hc₂, hb]
        rw [← List.append_assoc, List.take_append_drop]
      have hbs₂c : c₂.block_size = c.block_size := by rw [hc₂]; simp [hbs']
      refine ⟨b :: bl, ?_, ?_, ?_, ?_⟩
      · simp [StreamChunker.run, StreamChunker.next, hfill, hempty,
          Except.map, hbuf, ← hc₂, hrun]
      · simp [List.flatten_cons, hflat, ← hav, hjoin]
      · intro x hx
        by_cases hblnil : bl = []
        · rw [hblnil] at hx
          simp at hx
        · have hcons : (b :: bl).dropLast = b :: bl.dropLast := by
            cases bl
            · exact absurd rfl hblnil
            · rfl
          rw [hcons] at hx
          rcases List.mem_cons.mp hx with rfl | hx'
          · -- b is not the last block: the buffer必 has at least block_size
            have hfull : c.block_size ≤ c'.buf.length := by
              by_contra hlt
              have hr' : c'.read_all = true := by
                rcases hpost with hr | hge
                · exact hr
                · exact absurd hge hlt
              have hstream' : c'.stream = [] := hra' hr'
              have hav₂0 : c₂.available = [] := by
                simp [StreamChunker.available, hc₂, hr', hstream',
                  List.drop_eq_nil_iff, hbs']
                omega
              have : bl.flatten = [] := by rw [hflat, hav₂0]
              cases hbl0 : bl with
              | nil => exact hblnil hbl0
              | cons y ys =>
                have hy := hall y (by rw [hbl0]; simp)
                rw [hbl0] at this
                have hy0 : y = [] := by
                  have h2 := this
                  simp [List.flatten_cons] at h2
                  exact h2.1
                rw [hy0] at hy
                simp at hy
            rw [hb]
            simp [List.length_take, hbs']
            omega
          · have := hdrop x hx'
            rw [hbs₂c] at this
            exact this
      · intro x hx
        rcases List.mem_cons.mp hx with rfl | hx'
        · exact hlenb
        · have := hall x hx'
          rw [hbs₂c] at this
          exact this

/-- Helper: `next` returns `Ok(None)` exactly when the buffer is empty and
the upstream will deliver no further bytes. -/
theorem next_none_iff (c : StreamChunker) (hbs : 1 ≤ c.block_size)
    (hok : allOk c.stream = true) (hra : c.read_all = true → c.stream = []) :
    (∃ c', c.next = .ok (none, c')) ↔
      (c.buf = [] ∧ okJoin c.stream = []) := by
  obtain ⟨c', hfill, hbs', hok', hra', hav, hpost⟩ := fill_ok c hok hra
  constructor
  · rintro ⟨c'', hnext⟩
    rw [StreamChunker.next, hfill] at hnext
    by_cases hempty : c'.buf = []
    · have hread : c'.read_all = true := by
        rcases hpost with hr | hlen
        · exact hr
        · rw [hempty] at hlen
          simp at hlen
          omega
      have hav0 : c'.available = [] := by
        simp [StreamChunker.available, hempty, hread]
      have hcav : c.buf ++ (if c.read_all then [] else okJoin c.stream)
          = [] := by
        have : c.available = [] := by rw [← hav, hav0]
        exact this
      have hsplit := List.append_eq_nil.mp hcav
      refine ⟨hsplit.1, ?_⟩
      cases hr : c.read_all
      · have h2 := hsplit.2
        rw [hr] at h2
        simpa using h2
      · rw [hra hr]
        rfl
    · simp [Except.map, hempty] at hnext
  · rintro ⟨hb, hj⟩
    have hcav : c.available = [] := by
      simp only [StreamChunker.available, hb, List.nil_append]
      cases hr : c.read_all
      · simpa using hj
      · simp
    have hav0 : c'.available = [] := by rw [hav, hcav]
    have hempty : c'.buf = [] :=
      (List.append_eq_nil.mp hav0).1
    refine ⟨c', ?_⟩
    rw [StreamChunker.next, hfill]
    simp [Except.map, hempty]

/-- C6: for an upstream of only `Ok` chunks and `block_size ≥ 1`, the
blocks produced by repeated `StreamChunker::next` calls all have exactly
`block_size` bytes except possibly the last, which has between 1 and
`block_size`; their concatenation equals the concatenation of the upstream
bytes; and `next` returns `Ok(None)` exactly when the internal buffer is
empty and the upstream is exhausted. -/
theorem stream_chunker_spec (chunks : List (List Nat)) (bs fuel : Nat)
    (c : StreamChunker) (hbs : 1 ≤ bs)
    (hfuel : chunks.flatten.length < fuel)
    (hcbs : 1 ≤ c.block_size) (hok : allOk c.stream = true)
    (hra : c.read_all = true → c.stream = []) :
    (∃ bl, StreamChunker.run fuel
        (StreamChunker.new (chunks.map .ok) bs) = .ok bl ∧
      bl.flatten = chunks.flatten ∧
      (∀ b ∈ bl.dropLast, b.length = bs) ∧
      (∀ b ∈ bl, 1 ≤ b.length ∧ b.length ≤ bs)) ∧
    ((∃ c', c.next = .ok (none, c')) ↔
      (c.buf = [] ∧ okJoin c.stream = [])) := by
  constructor
  · have h1 : allOk (chunks.map Except.ok) = true := by
      simp [allOk, List.all_eq_true]
    have h2 : (StreamChunker.new (chunks.map .ok) bs).available
        = chunks.flatten := by
      simp [StreamChunker.new, StreamChunker.available, okJoin,
        List.filterMap_map, Function.comp_def, Except.toOption,
        List.filterMap_some]
    have h3 : (StreamChunker.new (chunks.map .ok) bs).available.length
        < fuel := by rw [h2]; exact hfuel
    obtain ⟨bl, hrun, hflat, hdrop, hall⟩ :=
      run_spec fuel (StreamChunker.new (chunks.map .ok) bs) hbs h1
        (by intro hcontra; exact absurd hcontra (by simp [StreamChunker.new]))
        h3
    exact ⟨bl, hrun, by rw [hflat, h2], hdrop, hall⟩
  · exact next_none_iff c hcbs hok hra

/-- C6 witness. -/
theorem stream_chunker_spec_witness :
    (1 ≤ 2 ∧
      ([[1, 2, 3], [4]] : List (List Nat)).flatten.length < 5 ∧
      1 ≤ (StreamChunker.new [Except.ok [1]] 2).block_size ∧
      allOk (StreamChunker.new [Except.ok [1]] 2).stream = true ∧
      ((StreamChunker.new [Except.ok [1]] 2).read_all = true →
        (StreamChunker.new [Except.ok [1]] 2).stream = [])) ∧
    ((∃ bl, StreamChunker.run 5
        (StreamChunker.new (([[1, 2, 3], [4]] : List (List Nat)).map
          .ok) 2) = .ok bl ∧
      bl.flatten = ([[1, 2, 3], [4]] : List (List Nat)).flatten ∧
      (∀ b ∈ bl.dropLast, b.length = 2) ∧
      (∀ b ∈ bl, 1 ≤ b.length ∧ b.length ≤ 2)) ∧
    ((∃ c', (StreamChunker.new [Except.ok [1]] 2).next = .ok (none, c')) ↔
      ((StreamChunker.new [Except.ok [1]] 2).buf = [] ∧
        okJoin (StreamChunker.new [Except.ok [1]] 2).stream = []))) :=
  ⟨⟨by decide, by decide, by decide, by decide,
    fun h => absurd h (by decide)⟩,
   stream_chunker_spec [[1, 2, 3], [4]] 2 5
     (StreamChunker.new [Except.ok [1]] 2) (by decide) (by decide)
     (by decide) (by decide) (fun h => absurd h (by decide))⟩

/-- Helper: the post-loop drain awaits futures in push order, stops at the
first failing write (dropping the rest), and on success returns the
accumulated byte count. -/
theorem drainWrites_spec (wr : WBlock → Option PErr) (written : Nat)
    (l : List WBlock) :
    (drainWrites wr written l).awaited ++ (drainWrites wr written l).dropped
      = l ∧
    (drainWrites wr written l).accepted = [] ∧
    (∀ n, (drainWrites wr written l).result = .ok n →
      (drainWrites wr written l).dropped = [] ∧ n = written) := by
  induction l with
  | nil => exact ⟨rfl, rfl, fun n h => ⟨rfl, by cases h; rfl⟩⟩
  | cons b rest ih =>
    cases hw : wr b with
    | some e =>
      refine ⟨?_, ?_, ?_⟩ <;> simp [drainWrites, hw]
    | none =>
      obtain ⟨h1, h2, h3⟩ := ih
      refine ⟨?_, ?_, ?_⟩ <;> simp [drainWrites, hw, h1, h2]
      intro n hn
      exact h3 n hn

/-- Helper: with sufficient fuel, every accepted block's write future is
either awaited or dropped (in push order after the initial in-flight set),
and an `Ok` return means nothing was dropped and the returned count is the
initial count plus the bytes of all accepted blocks. -/
theorem putBlocksLoop_spec (wr : WBlock → Option PErr) :
    ∀ (fuel : Nat) (sched : List Bool)
      (incoming : List (Except PErr WBlock)) (inflight : List WBlock)
      (written : Nat),
      2 * incoming.length + inflight.length < fuel →
    (putBlocksLoop wr fuel sched incoming inflight written).awaited
        ++ (putBlocksLoop wr fuel sched incoming inflight written).dropped
      = inflight
        ++ (putBlocksLoop wr fuel sched incoming inflight written).accepted ∧
    (∀ n, (putBlocksLoop wr fuel sched incoming inflight written).result
        = .ok n →
      (putBlocksLoop wr fuel sched incoming inflight written).dropped = [] ∧
      n = written + (((putBlocksLoop wr fuel sched incoming inflight
        written).accepted).map WBlock.len).sum) := by
  intro fuel
  induction fuel with
  | zero =>
    intro sched incoming inflight written hfuel
    exact absurd hfuel (Nat.not_lt_zero _)
  | succ f ih =>
    intro sched incoming inflight written hfuel
    cases inflight with
    | nil =>
      cases incoming with
      | nil => simp [putBlocksLoop, drainWrites]
      | cons x restIn =>
        cases x with
        | error e => simp [putBlocksLoop]
        | ok b =>
          have hm : 2 * restIn.length + 1 < f := by
            simp at hfuel
            omega
          obtain ⟨ihA, ihB⟩ := ih sched restIn [b] (written + b.len)
            (by simpa using hm)
          refine ⟨?_, ?_⟩
          · simpa [putBlocksLoop] using ihA
          · intro n hn
            simp only [putBlocksLoop] at hn ⊢
            obtain ⟨hd, hn'⟩ := ihB n hn
            refine ⟨hd, ?_⟩
            simp [hn']
            omega
    | cons b rest =>
      by_cases hcond : PUT_BLOCKS_MAX_PARALLEL ≤ rest.length + 1 ∨
          (sched.head?.getD false) = true
      · -- write_futs_next fires
        cases hw : wr b with
        | some e =>
          rcases hcond with hc | hc
          · refine ⟨?_, ?_⟩ <;> simp [putBlocksLoop, hc, hw]
          · refine ⟨?_, ?_⟩ <;> simp [putBlocksLoop, hc, hw]
        | none =>
          have hm : 2 * incoming.length + rest.length < f := by
            simp at hfuel
            omega
          obtain ⟨ihA, ihB⟩ := ih
            (if PUT_BLOCKS_MAX_PARALLEL ≤ rest.length + 1 then sched
              else sched.tail) incoming rest written hm
          rcases hcond with hc | hc
          · have hsched : (if PUT_BLOCKS_MAX_PARALLEL ≤ rest.length + 1
                then sched else sched.tail) = sched := if_pos hc
            rw [hsched] at ihA ihB
            refine ⟨?_, ?_⟩
            · simpa [putBlocksLoop, hc, hw] using ihA
            · intro n hn
              simp [putBlocksLoop, hc, hw] at hn
              obtain ⟨hd, hn'⟩ := ihB n hn
              refine ⟨?_, ?_⟩ <;> simp [putBlocksLoop, hc, hw, hd, hn']
          · refine ⟨?_, ?_⟩
            · simpa [putBlocksLoop, hc, hw] using ihA
            · intro n hn
              simp [putBlocksLoop, hc, hw] at hn
              obtain ⟨hd, hn'⟩ := ihB n hn
              refine ⟨?_, ?_⟩ <;> simp [putBlocksLoop, hc, hw, hd, hn']
      · -- recv_next fires
        cases incoming with
        | nil =>
          obtain ⟨h1, h2, h3⟩ := drainWrites_spec wr written (b :: rest)
          refine ⟨?_, ?_⟩
          · simp [putBlocksLoop, hcond, h1, h2]
          · intro n hn
            simp [putBlocksLoop, hcond] at hn
            obtain ⟨hd, hn'⟩ := h3 n hn
            refine ⟨?_, ?_⟩ <;> simp [putBlocksLoop, hcond, hd, hn', h2]
        | cons x restIn =>
          cases x with
          | error e =>
            refine ⟨?_, ?_⟩ <;> simp [putBlocksLoop, hcond]
          | ok nb =>
            obtain ⟨ihA, ihB⟩ := ih sched.tail restIn (b :: (rest ++ [nb]))
              (written + nb.len) (by simp at hfuel ⊢; omega)
            refine ⟨?_, ?_⟩
            · simp only [putBlocksLoop]
              simp [hcond]
              simp [List.cons_append] at ihA
              simp [ihA]
            · intro n hn
              simp [putBlocksLoop, hcond] at hn
              obtain ⟨hd, hn'⟩ := ihB n hn
              constructor
              · simp [putBlocksLoop, hcond, hd]
              · simp [putBlocksLoop, hcond, hn']
                omega

/-- Helper: whenever the oldest in-flight write future completes with an
error (and the `write_futs_next` arm fires), the loop returns that error
at once: the erroring future is the only one awaited, the rest of the
in-flight set is dropped, and no further block is accepted. -/
theorem putBlocksLoop_write_error (wr : WBlock → Option PErr)
    (fuel : Nat) (sched : List Bool)
    (incoming : List (Except PErr WBlock)) (b : WBlock)
    (rest : List WBlock) (written : Nat) (e : PErr)
    (hw : wr b = some e)
    (hcond : PUT_BLOCKS_MAX_PARALLEL ≤ (b :: rest).length ∨
      sched.headD false = true) :
    putBlocksLoop wr (fuel + 1) sched incoming (b :: rest) written
      = ⟨.error e, [b], rest, []⟩ := by
  have hc' : PUT_BLOCKS_MAX_PARALLEL ≤ rest.length + 1 ∨
      sched.head?.getD false = true := by simpa using hcond
  rcases hc' with hc | hc <;> simp [putBlocksLoop, hc, hw]

/-- C1 counterexample: with two accepted blocks, a schedule on which block
1's write future completes (with an error) while block 2's write future is
still in flight, the writer stage returns the error having awaited only
block 1's future — block 2's future is dropped un-awaited, so not every
in-flight future is awaited before the error is returned. -/
theorem put_blocks_error_counterexample :
    wrC1 ⟨1, 10⟩ = some 7 ∧
    put_blocks wrC1 [false, true] [.ok ⟨1, 10⟩, .ok ⟨2, 20⟩]
      = ⟨.error 7, [⟨1, 10⟩], [⟨2, 20⟩], [⟨1, 10⟩, ⟨2, 20⟩]⟩ ∧
    (put_blocks wrC1 [false, true] [.ok ⟨1, 10⟩, .ok ⟨2, 20⟩]).dropped
      ≠ [] :=
  ⟨rfl, rfl, by decide⟩

/-- C1 (amended): the first write error aborts the loop that accepts new
blocks and is returned immediately; write futures still in flight at that
moment are dropped (cancelled) without being awaited, not awaited for
their result.  In general every accepted block's future is either awaited
or dropped, and only a run whose result is `Ok` has awaited every write
future (the returned byte count then being the total length of the
accepted blocks). -/
theorem put_blocks_first_error_policy (wr : WBlock → Option PErr)
    (sched : List Bool) (incoming : List (Except PErr WBlock))
    (fuel written : Nat) (b : WBlock) (rest : List WBlock) (e : PErr) :
    ((put_blocks wr sched incoming).awaited
        ++ (put_blocks wr sched incoming).dropped
      = (put_blocks wr sched incoming).accepted) ∧
    (∀ n, (put_blocks wr sched incoming).result = .ok n →
      (put_blocks wr sched incoming).dropped = [] ∧
      n = (((put_blocks wr sched incoming).accepted).map WBlock.len).sum) ∧
    (wr b = some e →
      (PUT_BLOCKS_MAX_PARALLEL ≤ (b :: rest).length ∨
        sched.headD false = true) →
      putBlocksLoop wr (fuel + 1) sched incoming (b :: rest) written
        = ⟨.error e, [b], rest, []⟩) := by
  obtain ⟨hA, hB⟩ := putBlocksLoop_spec wr (2 * incoming.length + 1) sched
    incoming [] 0 (by simp)
  refine ⟨by simpa [put_blocks] using hA, ?_, ?_⟩
  · intro n hn
    obtain ⟨hd, hn'⟩ := hB n hn
    exact ⟨hd, by simpa using hn'⟩
  · intro hw hcond
    exact putBlocksLoop_write_error wr fuel sched incoming b rest written e
      hw hcond

/-- C1 (amended) witness. -/
theorem put_blocks_first_error_policy_witness :
    (wrC1 ⟨1, 10⟩ = some 7 ∧
      (PUT_BLOCKS_MAX_PARALLEL ≤ ([⟨1, 10⟩, ⟨2, 20⟩] : List WBlock).length ∨
        ([true] : List Bool).headD false = true)) ∧
    (((put_blocks wrC1 [true] []).awaited
        ++ (put_blocks wrC1 [true] []).dropped
      = (put_blocks wrC1 [true] []).accepted) ∧
    (∀ n, (put_blocks wrC1 [true] []).result = .ok n →
      (put_blocks wrC1 [true] []).dropped = [] ∧
      n = (((put_blocks wrC1 [true] []).accepted).map WBlock.len).sum) ∧
    (wrC1 ⟨1, 10⟩ = some 7 →
      (PUT_BLOCKS_MAX_PARALLEL ≤ ((⟨1, 10⟩ : WBlock) :: [⟨2, 20⟩]).length ∨
        ([true] : List Bool).headD false = true) →
      putBlocksLoop wrC1 (0 + 1) [true] [] (⟨1, 10⟩ :: [⟨2, 20⟩]) 0
        = ⟨.error 7, [⟨1, 10⟩], [⟨2, 20⟩], []⟩)) :=
  ⟨⟨rfl, by decide⟩,
    put_blocks_first_error_policy wrC1 [true] [] 0 0 ⟨1, 10⟩ [⟨2, 20⟩] 7⟩

end Garage
